import Mathlib

/-!
Verification of the `Adb` module (`pkg/nuclide-adb-sdb-rpc/lib/Adb.js`).

The module wraps the external `adb` binary: each method builds an argument
list, delegates to an external command runner, and post-processes the textual
result.  The shallow embedding below abstracts the external command execution:
wherever the source awaits the stdout of an adb invocation, the embedded
function takes that stdout text (or the outcome of the invocation) as an
explicit parameter.  The JavaScript string primitives used by the source —
`split(/\s+/)`, `split(/\n/)`, `trim()`, `toLowerCase()`, `substring(n)`,
`Array.includes` — are modelled on `String` (a list of characters) following
the ECMAScript semantics, including the empty tokens `split` produces at the
ends of a string that starts or ends with a separator run.
-/

namespace Adb

/-- Whitespace characters matched by the JavaScript regexp class `\s`
(restricted to ASCII, which is all the adb output formats use). -/
def isWsChar (c : Char) : Bool :=
  c = ' ' || c = '\t' || c = '\n' || c = '\r' || c = '\x0b' || c = '\x0c'

/-- One step (right fold) of splitting on runs of whitespace.  The state is
the list of tokens accumulated to the right of the cursor together with a
flag recording whether the character immediately to the right was whitespace
(so that a maximal whitespace run contributes a single separator). -/
def splitWsStep (c : Char) (st : List (List Char) × Bool) :
    List (List Char) × Bool :=
  if isWsChar c then
    if st.2 then st else ([] :: st.1, true)
  else
    match st.1 with
    | [] => ([[c]], false)
    | t :: ts => ((c :: t) :: ts, false)

/-- Split a character list on maximal runs of whitespace, as the JavaScript
expression `s.split(/\s+/)` does: a leading (resp. trailing) separator run
yields a leading (resp. trailing) empty token, and the empty string yields
the single token `""`. -/
def splitWsCore (l : List Char) : List (List Char) :=
  (l.foldr splitWsStep ([[]], false)).1

/-- JavaScript `s.split(/\s+/)`. -/
def splitWs (s : String) : List String :=
  (splitWsCore s.data).map String.mk

/-- Split a character list at every newline character, as `s.split(/\n/)`
does (single-character separator, so consecutive newlines yield empty
lines). -/
def splitNlCore : List Char → List Char → List (List Char)
  | [], acc => [acc.reverse]
  | c :: cs, acc =>
    if c = '\n' then acc.reverse :: splitNlCore cs []
    else splitNlCore cs (c :: acc)

/-- JavaScript `s.split(/\n/)`. -/
def splitNl (s : String) : List String :=
  (splitNlCore s.data []).map String.mk

/-- JavaScript `s.trim()` (ASCII whitespace). -/
def jsTrim (s : String) : String :=
  ⟨((s.data.dropWhile isWsChar).reverse.dropWhile isWsChar).reverse⟩

/-- JavaScript `s.trimStart()`; used only to reason about strings that begin
with whitespace. -/
def jsTrimStart (s : String) : String :=
  ⟨s.data.dropWhile isWsChar⟩

/-- JavaScript `s.toLowerCase()` on ASCII data. -/
def jsToLower (s : String) : String :=
  ⟨s.data.map Char.toLower⟩

/-- JavaScript `s.substring(start)`: the suffix from index `start`, empty
when the string is shorter. -/
def jsSubstring (s : String) (start : Nat) : String :=
  ⟨s.data.drop start⟩

/-- Assignment `o[k] = v` on a JavaScript object used as a string-keyed
record: if the key is present its value is updated in place (insertion order
kept), otherwise the pair is appended.  All objects in this development are
built from the empty object by such assignments, so keys are unique. -/
def objSet {α : Type} : List (String × α) → String → α → List (String × α)
  | [], k, v => [(k, v)]
  | p :: rest, k, v =>
    if p.1 = k then (k, v) :: rest else p :: objSet rest k v

/-- Property read `o[k]` on such an object: the value at the first (unique)
occurrence of the key, or `none` when absent (JavaScript `undefined`). -/
def lookupObj {α : Type} : List (String × α) → String → Option α
  | [], _ => none
  | p :: rest, k => if p.1 = k then some p.2 else lookupObj rest k

/-- Header resolution of `parsePsTableOutput` (`Adb.js` lines 194-202): the
loop lowercases each header token and, when it is among the desired field
names (exact membership test, JavaScript `Array.includes`), stores it under
the column index.  Each index is written at most once, so the resulting
object is exactly this function of the index. -/
def colMapping (cols : List String) (desiredFields : List String) :
    Nat → Option String :=
  fun i =>
    match cols.get? i with
    | some c =>
      let columnName := jsToLower c
      if desiredFields.contains columnName then some columnName else none
    | none => none

/-- Row scan of `parsePsTableOutput` (`Adb.js` lines 209-220).  The list
argument is the remainder of the row's tokens and `i` the column index of
its head (`effectiveColumn` in the source).  When the current token is the
literal `"S"` and is not the last token of the row, the loop increments its
index before reading the stored value, so the mapped field receives the
following token and the scan resumes two tokens further on. -/
def scanRowAux (cm : Nat → Option String) :
    List String → Nat → List (String × String) → List (String × String)
  | [], _, obj => obj
  | [t], i, obj =>
    (match cm i with
     | some f => objSet obj f t
     | none => obj)
  | t :: r :: rest, i, obj =>
    if t = "S" then
      scanRowAux cm rest (i + 2)
        (match cm i with
         | some f => objSet obj f r
         | none => obj)
    else
      scanRowAux cm (r :: rest) (i + 1)
        (match cm i with
         | some f => objSet obj f t
         | none => obj)

/-- The exported `parsePsTableOutput` (`Adb.js` lines 188-226): split the
output into lines, resolve the header columns against the desired fields,
and turn every data line that is non-blank after trimming into a record
(`data.filter(...).forEach(push)` is a filter followed by a map). -/
def parsePsTableOutput (output : String) (desiredFields : List String) :
    List (List (String × String)) :=
  let lines := splitNl output
  let header := lines.headD ""
  let cols := splitWs header
  let cm := colMapping cols desiredFields
  let data := lines.drop 1
  (data.filter (fun row => jsTrim row != "")).map
    (fun row => scanRowAux cm (splitWs row) 0 [])

/-- The data lines (all lines after the header) whose trimmed content is
non-empty, in input order. -/
def nonBlankDataLines (output : String) : List String :=
  ((splitNl output).drop 1).filter (fun row => jsTrim row != "")

/-- The whitespace-split tokens of the header line. -/
def headerCols (output : String) : List String :=
  splitWs ((splitNl output).headD "")

/-- The record `parsePsTableOutput` builds for one data line. -/
def recordOfLine (output : String) (desiredFields : List String)
    (row : String) : List (String × String) :=
  scanRowAux (colMapping (headerCols output) desiredFields) (splitWs row) 0 []

/-- Whether some two adjacent tokens of a row are both the literal `"S"`;
in that situation the source's skip heuristic consumes the second `"S"` as
a field value instead of skipping it. -/
def hasAdjS : List String → Bool
  | a :: b :: rest => (a = "S" && b = "S") || hasAdjS (b :: rest)
  | _ => false

/-! ### The remaining operations of the `Adb` class.

Each method awaits the stdout of one adb invocation (or, for the Java
process listing, the first event of a streamed invocation); the embedding
takes that external result as a parameter. -/

/-- Body of `getAndroidProp` (`Adb.js` lines 23-27) applied to the stdout of
`adb shell getprop key`: the output is trimmed. -/
def getAndroidProp (stdout : String) : String :=
  jsTrim stdout

/-- Body of `getDeviceModel` (`Adb.js` lines 49-53) applied to the stdout of
the `ro.product.model` property lookup: the property value `"sdk"` is
reported as `"emulator"`, everything else passes through. -/
def getDeviceModel (stdout : String) : String :=
  let s := getAndroidProp stdout
  if s = "sdk" then "emulator" else s

/-- Body of `getInstalledPackages` (`Adb.js` lines 33-42) applied to the
stdout of `adb shell pm list packages`: trim, split on whitespace runs, and
drop the first `"package:".length` characters of every token
(`s.substring(prefix.length)`), whether or not the token carries that
prefix. -/
def getInstalledPackages (stdout : String) : List String :=
  (splitWs (jsTrim stdout)).map (fun s => jsSubstring s "package:".length)

/-- Body of `isPackageInstalled` (`Adb.js` lines 44-47): exact membership of
the queried package name in the parsed package list
(`packages.includes(pkg)`). -/
def isPackageInstalled (stdout : String) (pkg : String) : Bool :=
  (getInstalledPackages stdout).contains pkg

/-- Outcome of one awaited property lookup: `Except.error` when the
underlying adb invocation fails (rejected promise). -/
def catchNull (r : Except Unit String) : Option String :=
  match r with
  | .ok v => some v
  | .error _ => none

/-- Body of `getDeviceInfo` (`Adb.js` lines 67-80).  `infoTable` is the map
returned by `getCommonDeviceInfo`; the three property lookups are awaited
with `.catch(() => null)`, so a failed lookup stores an explicit `null`
(modelled as `none`) under its key rather than omitting the key or failing
the aggregate call. -/
def getDeviceInfo (infoTable : List (String × Option String))
    (osVersion manufacturer brand : Except Unit String) :
    List (String × Option String) :=
  objSet
    (objSet
      (objSet infoTable "android_version" (catchNull osVersion))
      "manufacturer" (catchNull manufacturer))
    "brand" (catchNull brand)

/-- One event of the streamed `adb jdwp` invocation
(`observeProcessRaw(...)` messages: stdout / stderr chunks and the terminal
events; after the `.catch` the failure case is replaced by an event of kind
`error`). -/
inductive AdbEvent : Type
  | stdoutEv (data : String)
  | stderrEv (data : String)
  | errorEv
  | exitEv

/-- The set of JDWP pids extracted from the first stream event
(`Adb.js` lines 161-168): only a `stdout` event contributes, each
whitespace-split token trimmed; every other kind leaves the set empty. -/
def jdwpPidsOf : AdbEvent → List String
  | .stdoutEv data => (splitWs data).map jsTrim
  | _ => []

/-- Tail of `getJavaProcesses` (`Adb.js` lines 146-173): keep the rows of
the parsed `ps` table whose `pid` field is in the JDWP pid set (a row
without a `pid` key reads as `undefined`, which is in no set). -/
def getJavaProcesses (allProcesses : List (List (String × String)))
    (firstEvent : AdbEvent) : List (List (String × String)) :=
  allProcesses.filter (fun row =>
    match lookupObj row "pid" with
    | some p => (jdwpPidsOf firstEvent).contains p
    | none => false)

/-- `getJavaProcesses` including the `.catch` on the streamed scan: a failed
scan is replaced by a single `error` event before `take(1)`; a successful
scan delivers its first event (a process stream always ends with an `exit`
event, so the default is never reached on real streams). -/
def getJavaProcessesResult (allProcesses : List (List (String × String)))
    (scan : Except Unit (List AdbEvent)) : List (List (String × String)) :=
  getJavaProcesses allProcesses
    (match scan with
     | .error _ => .errorEv
     | .ok events => events.headD .exitEv)

/-! ### Helper lemmas about the embedded JavaScript primitives. -/

theorem lookupObj_objSet_self {α : Type} (o : List (String × α)) (k : String)
    (v : α) : lookupObj (objSet o k v) k = some v := by
  induction o with
  | nil => simp [objSet, lookupObj]
  | cons p rest ih =>
    by_cases h : p.1 = k
    · simp [objSet, lookupObj, h]
    · simp [objSet, lookupObj, h, ih]

theorem lookupObj_objSet_ne {α : Type} (o : List (String × α))
    (k x : String) (v : α) (hx : x ≠ k) :
    lookupObj (objSet o k v) x = lookupObj o x := by
  induction o with
  | nil => simp [objSet, lookupObj, Ne.symm hx]
  | cons p rest ih =>
    by_cases h : p.1 = k
    · simp [objSet, lookupObj, h, hx, Ne.symm hx]
    · simp [objSet, lookupObj, h, ih]

theorem mem_objSet {α : Type} {o : List (String × α)} {k : String} {v : α}
    {p : String × α} (hp : p ∈ objSet o k v) : p ∈ o ∨ p.1 = k := by
  induction o with
  | nil => simp [objSet] at hp; simp [hp]
  | cons q rest ih =>
    by_cases h : q.1 = k
    · simp [objSet, h] at hp
      rcases hp with hp | hp
      · right; rw [hp]
      · left; exact List.mem_cons_of_mem _ hp
    · simp [objSet, h] at hp
      rcases hp with hp | hp
      · left; exact hp ▸ List.mem_cons_self _ _
      · rcases ih hp with h' | h'
        · left; exact List.mem_cons_of_mem _ h'
        · right; exact h'

theorem hasAdjS_cons {a : String} {l : List String}
    (h : hasAdjS (a :: l) = false) : hasAdjS l = false := by
  cases l with
  | nil => rfl
  | cons b rest => simpa [hasAdjS] using And.right (by simpa [hasAdjS] using h)

theorem hasAdjS_head {a b : String} {l : List String}
    (h : hasAdjS (a :: b :: l) = false) : ¬(a = "S" ∧ b = "S") := by
  have := (by simpa [hasAdjS] using h : ¬(a = "S" ∧ b = "S") ∧ _)
  exact this.1

theorem splitWsStep_flag (c : Char) (st : List (List Char) × Bool) :
    (splitWsStep c st).2 = isWsChar c := by
  by_cases h : isWsChar c
  · by_cases h2 : st.2 <;> simp [splitWsStep, h, h2]
  · cases hs : st.1 <;> simp [splitWsStep, h, hs]

theorem foldr_splitWsStep_flag (l : List Char) :
    (l.foldr splitWsStep ([[]], false)).2 =
      match l with
      | [] => false
      | c :: _ => isWsChar c := by
  cases l with
  | nil => rfl
  | cons c cs => simpa using splitWsStep_flag c (cs.foldr splitWsStep ([[]], false))

theorem splitWsCore_ne_nil (l : List Char) : splitWsCore l ≠ [] := by
  induction l with
  | nil => simp [splitWsCore]
  | cons c cs ih =>
    unfold splitWsCore at ih ⊢
    rw [List.foldr_cons]
    by_cases h : isWsChar c
    · by_cases h2 : (cs.foldr splitWsStep ([[]], false)).2 <;>
        simp [splitWsStep, h, h2, ih]
    · cases hs : (cs.foldr splitWsStep ([[]], false)).1 with
      | nil => simp [splitWsStep, h, hs]
      | cons t ts => simp [splitWsStep, h, hs]

theorem splitWs_ne_nil (s : String) : splitWs s ≠ [] := by
  intro h
  exact splitWsCore_ne_nil s.data (by simpa [splitWs] using h)

theorem splitWsStep_of_flag {c : Char} (hc : isWsChar c = true)
    (st : List (List Char) × Bool) (hst : st.2 = true) :
    splitWsStep c st = st := by
  simp [splitWsStep, hc, hst]

theorem splitWsStep_of_not_flag {c : Char} (hc : isWsChar c = true)
    (st : List (List Char) × Bool) (hst : st.2 = false) :
    splitWsStep c st = ([] :: st.1, true) := by
  simp [splitWsStep, hc, hst]

theorem splitWsCore_ws_cons {c : Char} (hc : isWsChar c = true)
    (l : List Char) :
    splitWsCore (c :: l) = [] :: splitWsCore (l.dropWhile isWsChar) := by
  induction l generalizing c with
  | nil => simp [splitWsCore, splitWsStep, hc]
  | cons d ds ih =>
    by_cases hd : isWsChar d
    · have flag : ((d :: ds).foldr splitWsStep ([[]], false)).2 = true := by
        rw [foldr_splitWsStep_flag]; exact hd
      have step : splitWsCore (c :: d :: ds) = splitWsCore (d :: ds) := by
        unfold splitWsCore
        rw [List.foldr_cons, splitWsStep_of_flag hc _ flag]
      rw [step, ih hd, List.dropWhile_cons_of_pos hd]
    · have flag : ((d :: ds).foldr splitWsStep ([[]], false)).2 = false := by
        rw [foldr_splitWsStep_flag]; simpa using hd
      unfold splitWsCore
      rw [List.foldr_cons, splitWsStep_of_not_flag hc _ flag,
        List.dropWhile_cons_of_neg (by simpa using hd)]

theorem splitWs_ws_cons {s : String} {c : Char} {cs : List Char}
    (hdata : s.data = c :: cs) (hc : isWsChar c = true) :
    splitWs s = "" :: splitWs (jsTrimStart s) := by
  have : jsTrimStart s = ⟨cs.dropWhile isWsChar⟩ := by
    simp [jsTrimStart, hdata, List.dropWhile_cons_of_pos hc]
  rw [this]
  simp [splitWs, hdata, splitWsCore_ws_cons hc]

/-! ### Invariants of the row scan. -/

theorem scan_frame (cm : Nat → Option String) (f : String) :
    ∀ (ts : List String) (i : Nat) (obj : List (String × String)),
      (∀ m, m < ts.length → cm (i + m) ≠ some f) →
      lookupObj (scanRowAux cm ts i obj) f = lookupObj obj f
  | [], _, _, _ => rfl
  | [t], i, obj, h => by
    have h0 : cm (i + 0) ≠ some f := h 0 (by simp)
    rw [Nat.add_zero] at h0
    cases hcm : cm i with
    | none => simp [scanRowAux, hcm]
    | some f0 =>
      have hne : f ≠ f0 := fun he => h0 (by rw [hcm, he])
      simp only [scanRowAux, hcm]
      exact lookupObj_objSet_ne obj f0 f t hne
  | t :: r :: rest, i, obj, h => by
    have h0 : cm (i + 0) ≠ some f := h 0 (by simp)
    rw [Nat.add_zero] at h0
    by_cases hS : t = "S"
    · have hrec : ∀ m, m < rest.length → cm (i + 2 + m) ≠ some f := by
        intro m hm
        have := h (m + 2) (by simp only [List.length_cons]; omega)
        rwa [show i + (m + 2) = i + 2 + m by omega] at this
      cases hcm : cm i with
      | none =>
        simp only [scanRowAux, if_pos hS, hcm]
        exact scan_frame cm f rest (i + 2) obj hrec
      | some f0 =>
        have hne : f ≠ f0 := fun he => h0 (by rw [hcm, he])
        simp only [scanRowAux, if_pos hS, hcm]
        rw [scan_frame cm f rest (i + 2) _ hrec]
        exact lookupObj_objSet_ne obj f0 f r hne
    · have hrec : ∀ m, m < (r :: rest).length → cm (i + 1 + m) ≠ some f := by
        intro m hm
        have := h (m + 1) (by simp only [List.length_cons] at hm ⊢; omega)
        rwa [show i + (m + 1) = i + 1 + m by omega] at this
      cases hcm : cm i with
      | none =>
        simp only [scanRowAux, if_neg hS, hcm]
        exact scan_frame cm f (r :: rest) (i + 1) obj hrec
      | some f0 =>
        have hne : f ≠ f0 := fun he => h0 (by rw [hcm, he])
        simp only [scanRowAux, if_neg hS, hcm]
        rw [scan_frame cm f (r :: rest) (i + 1) _ hrec]
        exact lookupObj_objSet_ne obj f0 f t hne

theorem scan_unmapped (cm : Nat → Option String) :
    ∀ (ts : List String) (i : Nat) (obj : List (String × String)),
      (∀ j, cm j = none) → scanRowAux cm ts i obj = obj
  | [], _, _, _ => rfl
  | [t], i, obj, h => by simp [scanRowAux, h i]
  | t :: r :: rest, i, obj, h => by
    by_cases hS : t = "S"
    · simp only [scanRowAux, if_pos hS, h i]
      exact scan_unmapped cm rest (i + 2) obj h
    · simp only [scanRowAux, if_neg hS, h i]
      exact scan_unmapped cm (r :: rest) (i + 1) obj h

theorem scan_mem (cm : Nat → Option String) :
    ∀ (ts : List String) (i : Nat) (obj : List (String × String))
      (p : String × String), p ∈ scanRowAux cm ts i obj →
      p ∈ obj ∨ ∃ m, m < ts.length ∧ cm (i + m) = some p.1
  | [], _, _, _, hp => Or.inl hp
  | [t], i, obj, p, hp => by
    cases hcm : cm i with
    | none =>
      simp only [scanRowAux, hcm] at hp
      exact Or.inl hp
    | some f0 =>
      simp only [scanRowAux, hcm] at hp
      rcases mem_objSet hp with h | h
      · exact Or.inl h
      · exact Or.inr ⟨0, by simp, by rw [Nat.add_zero, hcm, h]⟩
  | t :: r :: rest, i, obj, p, hp => by
    by_cases hS : t = "S"
    · simp only [scanRowAux, if_pos hS] at hp
      rcases scan_mem cm rest (i + 2) _ p hp with h | ⟨m, hm, hcmm⟩
      · cases hcm : cm i with
        | none =>
          simp only [hcm] at h
          exact Or.inl h
        | some f0 =>
          simp only [hcm] at h
          rcases mem_objSet h with h' | h'
          · exact Or.inl h'
          · exact Or.inr ⟨0, by simp, by rw [Nat.add_zero, hcm, h']⟩
      · refine Or.inr ⟨m + 2, by simp only [List.length_cons]; omega, ?_⟩
        rwa [show i + (m + 2) = i + 2 + m by omega]
    · simp only [scanRowAux, if_neg hS] at hp
      rcases scan_mem cm (r :: rest) (i + 1) _ p hp with h | ⟨m, hm, hcmm⟩
      · cases hcm : cm i with
        | none =>
          simp only [hcm] at h
          exact Or.inl h
        | some f0 =>
          simp only [hcm] at h
          rcases mem_objSet h with h' | h'
          · exact Or.inl h'
          · exact Or.inr ⟨0, by simp, by rw [Nat.add_zero, hcm, h']⟩
      · refine Or.inr ⟨m + 1, by simp only [List.length_cons] at hm ⊢; omega, ?_⟩
        rwa [show i + (m + 1) = i + 1 + m by omega]

theorem scan_skip_lookup (cm : Nat → Option String) (f : String) :
    ∀ (ts : List String) (i : Nat) (obj : List (String × String)) (k : Nat),
      hasAdjS ts = false →
      ts.get? k = some "S" → k + 1 < ts.length →
      cm (i + k) = some f →
      (∀ m, m < ts.length → cm (i + m) = some f → m = k) →
      lookupObj (scanRowAux cm ts i obj) f = ts.get? (k + 1)
  | [], _, _, k, _, hget, _, _, _ => by simp at hget
  | [t], _, _, k, _, _, hlt, _, _ => by simp at hlt
  | t :: r :: rest, i, obj, k, hadj, hget, hlt, hcmk, huniq => by
    by_cases hS : t = "S"
    · match k with
      | 0 =>
        rw [Nat.add_zero] at hcmk
        simp only [scanRowAux, if_pos hS, hcmk]
        have hframe : ∀ m, m < rest.length → cm (i + 2 + m) ≠ some f := by
          intro m hm he
          rw [show i + 2 + m = i + (m + 2) by omega] at he
          have := huniq (m + 2) (by simp only [List.length_cons]; omega) he
          omega
        rw [scan_frame cm f rest (i + 2) _ hframe, lookupObj_objSet_self]
        simp
      | 1 =>
        exact absurd ⟨hS, by simpa using hget⟩ (hasAdjS_head hadj)
      | (k' + 2) =>
        simp only [scanRowAux, if_pos hS]
        have IH := scan_skip_lookup cm f rest (i + 2)
          (match cm i with
           | some f0 => objSet obj f0 r
           | none => obj) k'
          (hasAdjS_cons (hasAdjS_cons hadj))
          (by simpa using hget)
          (by simp only [List.length_cons] at hlt ⊢; omega)
          (by rwa [show i + 2 + k' = i + (k' + 2) by omega])
          (by
            intro m hm he
            rw [show i + 2 + m = i + (m + 2) by omega] at he
            have := huniq (m + 2) (by simp only [List.length_cons]; omega) he
            omega)
        rw [IH]
        simp
    · match k with
      | 0 => exact absurd (by simpa using hget) hS
      | (k' + 1) =>
        simp only [scanRowAux, if_neg hS]
        have IH := scan_skip_lookup cm f (r :: rest) (i + 1)
          (match cm i with
           | some f0 => objSet obj f0 t
           | none => obj) k'
          (hasAdjS_cons hadj)
          (by simpa using hget)
          (by simp only [List.length_cons] at hlt ⊢; omega)
          (by rwa [show i + 1 + k' = i + (k' + 1) by omega])
          (by
            intro m hm he
            rw [show i + 1 + m = i + (m + 1) by omega] at he
            have := huniq (m + 1) (by simp only [List.length_cons] at hm ⊢; omega) he
            omega)
        rw [IH]
        simp

theorem scan_value_S (cm : Nat → Option String) :
    ∀ (ts : List String) (i : Nat) (obj : List (String × String))
      (f : String),
      hasAdjS ts = false →
      lookupObj (scanRowAux cm ts i obj) f = some "S" →
      lookupObj obj f = some "S" ∨ ts.getLast? = some "S"
  | [], _, _, _, _, h => Or.inl h
  | [t], i, obj, f, _, h => by
    cases hcm : cm i with
    | none =>
      simp only [scanRowAux, hcm] at h
      exact Or.inl h
    | some f0 =>
      simp only [scanRowAux, hcm] at h
      by_cases hf : f = f0
      · subst hf
        rw [lookupObj_objSet_self] at h
        right
        simpa [List.getLast?] using h
      · rw [lookupObj_objSet_ne obj f0 f t hf] at h
        exact Or.inl h
  | t :: r :: rest, i, obj, f, hadj, h => by
    by_cases hS : t = "S"
    · simp only [scanRowAux, if_pos hS] at h
      rcases scan_value_S cm rest (i + 2) _ f
          (hasAdjS_cons (hasAdjS_cons hadj)) h with h' | h'
      · cases hcm : cm i with
        | none =>
          simp only [hcm] at h'
          exact Or.inl h'
        | some f0 =>
          simp only [hcm] at h'
          by_cases hf : f = f0
          · subst hf
            rw [lookupObj_objSet_self] at h'
            exact absurd ⟨hS, Option.some.inj h'⟩ (hasAdjS_head hadj)
          · rw [lookupObj_objSet_ne obj f0 f r hf] at h'
            exact Or.inl h'
      · right
        cases rest with
        | nil => simp at h'
        | cons x xs =>
          rw [List.getLast?_cons_cons, List.getLast?_cons_cons]
          exact h'
    · simp only [scanRowAux, if_neg hS] at h
      rcases scan_value_S cm (r :: rest) (i + 1) _ f (hasAdjS_cons hadj) h
          with h' | h'
      · cases hcm : cm i with
        | none =>
          simp only [hcm] at h'
          exact Or.inl h'
        | some f0 =>
          simp only [hcm] at h'
          by_cases hf : f = f0
          · subst hf
            rw [lookupObj_objSet_self] at h'
            exact absurd (Option.some.inj h') hS
          · rw [lookupObj_objSet_ne obj f0 f t hf] at h'
            exact Or.inl h'
      · right
        rw [List.getLast?_cons_cons]
        exact h'

theorem scan_last_S (cm : Nat → Option String) (f : String) :
    ∀ (ts : List String) (i : Nat) (obj : List (String × String)),
      hasAdjS ts = false →
      ts.get? (ts.length - 1) = some "S" →
      cm (i + (ts.length - 1)) = some f →
      (∀ m, m < ts.length → cm (i + m) = some f → m = ts.length - 1) →
      lookupObj (scanRowAux cm ts i obj) f = some "S"
  | [], _, _, _, hget, _, _ => by simp at hget
  | [t], i, obj, _, hget, hcm, _ => by
    have hcm' : cm i = some f := by simpa using hcm
    have ht : t = "S" := by simpa using hget
    simp only [scanRowAux, hcm']
    rw [lookupObj_objSet_self, ht]
  | t :: r :: rest, i, obj, hadj, hget, hcm, huniq => by
    by_cases hS : t = "S"
    · cases rest with
      | nil =>
        have hr : r = "S" := by simpa using hget
        exact absurd ⟨hS, hr⟩ (hasAdjS_head hadj)
      | cons x xs =>
        simp only [scanRowAux, if_pos hS]
        apply scan_last_S cm f (x :: xs) (i + 2) _
            (hasAdjS_cons (hasAdjS_cons hadj))
        · simpa using hget
        · rw [show i + 2 + ((x :: xs).length - 1) =
              i + ((t :: r :: x :: xs).length - 1) by
            simp only [List.length_cons]; omega]
          exact hcm
        · intro m hm he
          rw [show i + 2 + m = i + (m + 2) by omega] at he
          have := huniq (m + 2) (by simp only [List.length_cons] at hm ⊢; omega) he
          simp only [List.length_cons] at this ⊢
          omega
    · simp only [scanRowAux, if_neg hS]
      apply scan_last_S cm f (r :: rest) (i + 1) _ (hasAdjS_cons hadj)
      · have hne : (t :: r :: rest).length - 1 = (r :: rest).length - 1 + 1 := by
          simp only [List.length_cons]
          omega
        rw [hne] at hget
        simpa using hget
      · rw [show i + 1 + ((r :: rest).length - 1) =
            i + ((t :: r :: rest).length - 1) by
          simp only [List.length_cons]; omega]
        exact hcm
      · intro m hm he
        rw [show i + 1 + m = i + (m + 1) by omega] at he
        have := huniq (m + 1) (by simp only [List.length_cons] at hm ⊢; omega) he
        simp only [List.length_cons] at this ⊢
        omega

theorem colMapping_eq_some {cols fs : List String} {i : Nat} {f : String}
    (h : colMapping cols fs i = some f) :
    fs.contains f = true ∧ ∃ t ∈ cols, jsToLower t = f := by
  unfold colMapping at h
  cases hg : cols.get? i with
  | none => rw [hg] at h; simp at h
  | some t =>
    rw [hg] at h
    have h' : (if fs.contains (jsToLower t) = true then some (jsToLower t)
        else none) = some f := h
    by_cases hc : fs.contains (jsToLower t) = true
    · rw [if_pos hc] at h'
      obtain rfl := Option.some.inj h'
      exact ⟨hc, t, List.get?_mem hg, rfl⟩
    · rw [if_neg hc] at h'
      exact absurd h' (by simp)

end Adb

namespace Adb

/-- C2: `parsePsTableOutput` emits exactly one record per data line (every
line after the first) whose trimmed content is non-empty, in the order those
lines appear in the input; blank-after-trimming lines produce no record, so
the result length equals the number of non-blank data lines. -/
theorem parse_record_per_nonblank_line (out : String) (fs : List String) :
    parsePsTableOutput out fs =
      (nonBlankDataLines out).map (recordOfLine out fs)
    ∧ (parsePsTableOutput out fs).length =
        ((splitNl out).drop 1).countP (fun row => jsTrim row != "")
    ∧ ∀ k, (parsePsTableOutput out fs).get? k =
        ((nonBlankDataLines out).get? k).map (recordOfLine out fs) := by
  refine ⟨rfl, ?_, fun k => ?_⟩
  · rw [show parsePsTableOutput out fs =
        (nonBlankDataLines out).map (recordOfLine out fs) from rfl,
      List.length_map, nonBlankDataLines, List.countP_eq_length_filter]
  · rw [show parsePsTableOutput out fs =
        (nonBlankDataLines out).map (recordOfLine out fs) from rfl,
      List.get?_map]

/-- C5: `isPackageInstalled` returns true exactly when the parsed package
list contains a string equal to the queried package name. -/
theorem isPackageInstalled_iff_mem (stdout pkg : String) :
    isPackageInstalled stdout pkg = true ↔
      pkg ∈ getInstalledPackages stdout := by
  simp [isPackageInstalled, List.contains]

/-- C6: `getDeviceInfo` always sets the keys `android_version`,
`manufacturer` and `brand`; a failed property lookup stores the explicit
null marker (`none`) under its key instead of omitting it, and the aggregate
call (a total function of the three lookup outcomes) never fails because of
such a lookup. -/
theorem getDeviceInfo_optional_props
    (base : List (String × Option String))
    (os ma br : Except Unit String) :
    lookupObj (getDeviceInfo base os ma br) "android_version" =
      some (catchNull os)
    ∧ lookupObj (getDeviceInfo base os ma br) "manufacturer" =
        some (catchNull ma)
    ∧ lookupObj (getDeviceInfo base os ma br) "brand" = some (catchNull br)
    ∧ ∀ e, catchNull (Except.error e) = none := by
  refine ⟨?_, ?_, ?_, fun e => rfl⟩
  · unfold getDeviceInfo
    rw [lookupObj_objSet_ne _ _ _ _ (by decide),
      lookupObj_objSet_ne _ _ _ _ (by decide), lookupObj_objSet_self]
  · unfold getDeviceInfo
    rw [lookupObj_objSet_ne _ _ _ _ (by decide), lookupObj_objSet_self]
  · unfold getDeviceInfo
    rw [lookupObj_objSet_self]

/-- C7: in `getJavaProcesses`, a failure of the streaming JDWP scan is
replaced by an error-tagged event, whose JDWP pid set is empty, so the
operation resolves with the empty process list instead of rejecting. -/
theorem getJavaProcesses_scan_error_empty
    (allProcesses : List (List (String × String))) (e : Unit) :
    jdwpPidsOf .errorEv = []
    ∧ getJavaProcessesResult allProcesses (Except.error e) = [] := by
  refine ⟨rfl, ?_⟩
  unfold getJavaProcessesResult getJavaProcesses
  rw [List.filter_eq_nil]
  intro row _
  cases h : lookupObj row "pid" <;> simp [h, jdwpPidsOf, List.contains]

/-- C8: `getDeviceModel` reports `"emulator"` whenever the looked-up
property value (the trimmed `getprop` output for `ro.product.model`) is
exactly `"sdk"`, and returns any other property value unchanged. -/
theorem getDeviceModel_sdk_emulator (stdout : String) :
    (getAndroidProp stdout = "sdk" → getDeviceModel stdout = "emulator")
    ∧ (getAndroidProp stdout ≠ "sdk" →
        getDeviceModel stdout = getAndroidProp stdout) := by
  constructor <;> intro h <;> simp [getDeviceModel, h]

/-- Witness for C8 at concrete property outputs. -/
theorem getDeviceModel_sdk_emulator_witness :
    getDeviceModel "  sdk " = "emulator"
    ∧ getDeviceModel " Pixel 3 " = "Pixel 3" :=
  ⟨(getDeviceModel_sdk_emulator "  sdk ").1 (by decide),
   by
    have h := (getDeviceModel_sdk_emulator " Pixel 3 ").2 (by decide)
    rwa [show getAndroidProp " Pixel 3 " = "Pixel 3" from by decide] at h⟩

/-- C9: `getInstalledPackages` drops the first 8 characters (the length of
`"package:"`) from every whitespace-separated token of the trimmed output,
unconditionally; on empty or all-whitespace output it therefore returns the
one-element list `[""]`, not `[]`, and `isPackageInstalled` with the empty
package name is then true. -/
theorem getInstalledPackages_unconditional_strip :
    (∀ stdout, getInstalledPackages stdout =
        (splitWs (jsTrim stdout)).map
          (fun t => jsSubstring t "package:".length))
    ∧ "package:".length = 8
    ∧ ∀ stdout, jsTrim stdout = "" →
        getInstalledPackages stdout = [""]
        ∧ isPackageInstalled stdout "" = true := by
  refine ⟨fun _ => rfl, rfl, fun stdout h => ?_⟩
  have hpk : getInstalledPackages stdout = [""] := by
    unfold getInstalledPackages
    rw [h]
    decide
  exact ⟨hpk, by rw [isPackageInstalled, hpk]; decide⟩

/-- Witness for C9 at an all-whitespace command output. -/
theorem getInstalledPackages_unconditional_strip_witness :
    jsTrim " \n " = ""
    ∧ getInstalledPackages " \n " = [""]
    ∧ isPackageInstalled " \n " "" = true :=
  ⟨by decide,
   (getInstalledPackages_unconditional_strip.2.2 " \n " (by decide)).1,
   (getInstalledPackages_unconditional_strip.2.2 " \n " (by decide)).2⟩

/-- C4: `parsePsTableOutput` is a total function (it is defined without any
failure case, so it returns on every input); a data row shorter than the
header yields a record that simply omits the fields of the missing trailing
columns (every key of a record is mapped from a column index below the
row's token count), and a header with no recognized fields yields one
record with no keys per non-blank data line. -/
theorem parse_total_edge_cases (out : String) (fs : List String) :
    ((∀ t ∈ headerCols out, fs.contains (jsToLower t) = false) →
      parsePsTableOutput out fs =
        (nonBlankDataLines out).map (fun _ => ([] : List (String × String))))
    ∧ ∀ r ∈ nonBlankDataLines out, ∀ p ∈ recordOfLine out fs r,
        ∃ m, m < (splitWs r).length ∧
          colMapping (headerCols out) fs m = some p.1 := by
  constructor
  · intro hnone
    have hcm : ∀ j, colMapping (headerCols out) fs j = none := by
      intro j
      unfold colMapping
      cases hg : (headerCols out).get? j with
      | none => simp
      | some t =>
        have hc : jsToLower t ∉ fs := by
          simpa using hnone t (List.get?_mem hg)
        simp [hc]
    rw [show parsePsTableOutput out fs =
        (nonBlankDataLines out).map (recordOfLine out fs) from rfl]
    apply List.map_congr_left
    intro r _
    unfold recordOfLine
    exact scan_unmapped _ _ 0 [] hcm
  · intro r _ p hp
    unfold recordOfLine at hp
    rcases scan_mem _ _ 0 [] p hp with h | ⟨m, hm, hcmm⟩
    · simp at h
    · exact ⟨m, hm, by rwa [Nat.zero_add] at hcmm⟩

/-- Witness for C4: a header with no recognized fields yields empty records,
and on a normal input every record key comes from an in-range column. -/
theorem parse_total_edge_cases_witness :
    parsePsTableOutput "FOO BAR\nx y z" ["pid"] =
      (nonBlankDataLines "FOO BAR\nx y z").map
        (fun _ => ([] : List (String × String)))
    ∧ ∃ m, m < (splitWs "12").length ∧
        colMapping (headerCols "PID NAME\n12") ["pid", "name"] m =
          some "pid" :=
  ⟨(parse_total_edge_cases "FOO BAR\nx y z" ["pid"]).1 (by decide),
   (parse_total_edge_cases "PID NAME\n12" ["pid", "name"]).2
     "12" (by decide) ("pid", "12") (by decide)⟩

/-- C3 fails as stated: the desired field `"PID"` matches the header token
`"PID"` case-insensitively (they are even equal), yet `parsePsTableOutput`
never binds it, because the source compares the lowercased header token for
exact equality against the desired field name as given; the only record of
the parse carries no key at all. -/
theorem parse_field_binding_cex :
    (∃ t ∈ splitWs "PID", jsToLower t = jsToLower "PID")
    ∧ parsePsTableOutput "PID\n123" ["PID"] = [[]] :=
  ⟨⟨"PID", by decide, rfl⟩, by decide⟩

/-- C3 amended: a desired field name is bound to a header column exactly
when some whitespace-delimited header token lowercases to that exact field
name (so the match is case-insensitive in the header token but exact on the
desired field, which must itself be lowercase to ever match); every key of
every output record is such a lowercased header token among the desired
fields, so a desired field lowercasing-equal to no header token never
appears as a key. -/
theorem parse_field_binding_lowercase :
    (∀ (cols fs : List String) (f : String),
      (∃ i, colMapping cols fs i = some f) ↔
        (fs.contains f = true ∧ ∃ t ∈ cols, jsToLower t = f))
    ∧ ∀ (out : String) (fs : List String) rec p,
        rec ∈ parsePsTableOutput out fs → p ∈ rec →
        fs.contains p.1 = true ∧ ∃ t ∈ headerCols out, jsToLower t = p.1 := by
  constructor
  · intro cols fs f
    constructor
    · rintro ⟨i, hi⟩
      exact colMapping_eq_some hi
    · rintro ⟨hf, t, ht, hlow⟩
      obtain ⟨i, hi⟩ := List.get?_of_mem ht
      refine ⟨i, ?_⟩
      unfold colMapping
      rw [hi]
      simp only [hlow]
      rw [if_pos hf]
  · intro out fs rec p hrec hp
    rw [show parsePsTableOutput out fs =
        (nonBlankDataLines out).map (recordOfLine out fs) from rfl] at hrec
    obtain ⟨r, _, rfl⟩ := List.mem_map.mp hrec
    unfold recordOfLine at hp
    rcases scan_mem _ _ 0 [] p hp with h | ⟨m, _, hcmm⟩
    · simp at h
    · rw [Nat.zero_add] at hcmm
      exact colMapping_eq_some hcmm

/-- Witness for C3 (amended) at a concrete parse. -/
theorem parse_field_binding_lowercase_witness :
    ((∃ i, colMapping (splitWs "UsEr PID") ["user", "pid"] i = some "user") ↔
      (["user", "pid"].contains "user" = true ∧
        ∃ t ∈ splitWs "UsEr PID", jsToLower t = "user"))
    ∧ (["user", "pid"].contains "pid" = true ∧
        ∃ t ∈ headerCols "UsEr PID\nroot 7", jsToLower t = "pid") :=
  ⟨parse_field_binding_lowercase.1 (splitWs "UsEr PID") ["user", "pid"]
     "user",
   parse_field_binding_lowercase.2 "UsEr PID\nroot 7" ["user", "pid"]
     [("user", "root"), ("pid", "7")] ("pid", "7") (by decide) (by decide)⟩

/-- C10: a non-blank data line beginning with whitespace splits into a
leading empty token at position 0, so its real tokens are scanned against
the header column one to the right of their visual column (the record is
the scan of the unindented tokens started at column index 1, after column 0
consumed the empty token); a header line beginning with whitespace likewise
gains a leading empty token, shifting every real header token one column to
the right. -/
theorem parse_leading_whitespace_shift (out : String) (fs : List String)
    (r : String) (_hr : r ∈ nonBlankDataLines out)
    (c : Char) (cs : List Char) (hdata : r.data = c :: cs)
    (hc : isWsChar c = true) :
    splitWs r = "" :: splitWs (jsTrimStart r)
    ∧ recordOfLine out fs r =
        scanRowAux (colMapping (headerCols out) fs)
          (splitWs (jsTrimStart r)) 1
          (match colMapping (headerCols out) fs 0 with
           | some f => objSet [] f ""
           | none => [])
    ∧ ∀ (hl : String) (hfs : List String) (d : Char) (ds : List Char),
        hl.data = d :: ds → isWsChar d = true →
        splitWs hl = "" :: splitWs (jsTrimStart hl)
        ∧ ∀ k, colMapping (splitWs hl) hfs (k + 1) =
            colMapping (splitWs (jsTrimStart hl)) hfs k := by
  have hsplit := splitWs_ws_cons hdata hc
  refine ⟨hsplit, ?_, ?_⟩
  · unfold recordOfLine
    rw [hsplit]
    obtain ⟨t, ts, hts⟩ : ∃ t ts, splitWs (jsTrimStart r) = t :: ts := by
      cases hx : splitWs (jsTrimStart r) with
      | nil => exact absurd hx (splitWs_ne_nil _)
      | cons t ts => exact ⟨t, ts, rfl⟩
    rw [hts]
    simp only [scanRowAux]
    rw [if_neg (by decide : ¬("" : String) = "S")]
  · intro hl hfs d ds hd hdws
    refine ⟨splitWs_ws_cons hd hdws, fun k => ?_⟩
    rw [splitWs_ws_cons hd hdws]
    unfold colMapping
    rw [List.get?_cons_succ]

/-- Witness for C10: an indented row against an unindented two-column
header; column 0 consumes the empty token, so `user` receives `""` and
`pid` receives the visually first token `"root"`. -/
theorem parse_leading_whitespace_shift_witness :
    splitWs " root 123" = "" :: splitWs (jsTrimStart " root 123")
    ∧ recordOfLine "USER PID\n root 123" ["user", "pid"] " root 123" =
        scanRowAux
          (colMapping (headerCols "USER PID\n root 123") ["user", "pid"])
          (splitWs (jsTrimStart " root 123")) 1
          (match colMapping (headerCols "USER PID\n root 123")
              ["user", "pid"] 0 with
           | some f => objSet [] f ""
           | none => [])
    ∧ recordOfLine "USER PID\n root 123" ["user", "pid"] " root 123" =
        [("user", ""), ("pid", "root")] :=
  ⟨(parse_leading_whitespace_shift "USER PID\n root 123" ["user", "pid"]
      " root 123" (by decide) ' ' ("root 123" : String).data rfl
      (by decide)).1,
   (parse_leading_whitespace_shift "USER PID\n root 123" ["user", "pid"]
      " root 123" (by decide) ' ' ("root 123" : String).data rfl
      (by decide)).2.1,
   by decide⟩

/-- C1 fails as stated: on the data line `"S S x"` under header `"A B C"`,
the second `"S"` token (position 1, not last) is not skipped but consumed
as the value of the field of column 0, so field `a` takes the value `"S"`
and field `b` (the one mapped to the skipped token's position) gets nothing;
with a field bound to two columns (`"NAME X NAME"` over `"S a b"`) the field
at the skipped position 0 ends with the column-2 value `"b"`, not the
following token `"a"`. -/
theorem parse_skipS_literal_cex :
    lookupObj ((parsePsTableOutput "A B C\nS S x" ["a", "b", "c"]).headD [])
        "a" = some "S"
    ∧ lookupObj
        ((parsePsTableOutput "A B C\nS S x" ["a", "b", "c"]).headD []) "b" =
        none
    ∧ lookupObj
        ((parsePsTableOutput "NAME X NAME\nS a b" ["name", "x"]).headD [])
        "name" = some "b" := by
  decide

/-- C1 amended: on a data line with no two adjacent `"S"` tokens, a token
`"S"` that is not the last token of the line is skipped: the field mapped
to its position — provided that field is bound to no other column — takes
the value of the token immediately following the skipped `"S"`; no
header-mapped field takes the value `"S"` unless the line's last token is
`"S"`; and an `"S"` that is the last token of the line is stored as an
ordinary field value for its (uniquely bound) column. -/
theorem parse_skipS_scan (out : String) (fs : List String) (r : String)
    (_hr : r ∈ nonBlankDataLines out)
    (hadj : hasAdjS (splitWs r) = false) :
    (∀ k f, (splitWs r).get? k = some "S" → k + 1 < (splitWs r).length →
      colMapping (headerCols out) fs k = some f →
      (∀ m, m < (splitWs r).length →
        colMapping (headerCols out) fs m = some f → m = k) →
      lookupObj (recordOfLine out fs r) f = (splitWs r).get? (k + 1))
    ∧ (∀ f, lookupObj (recordOfLine out fs r) f = some "S" →
        (splitWs r).getLast? = some "S")
    ∧ (∀ f, (splitWs r).get? ((splitWs r).length - 1) = some "S" →
        colMapping (headerCols out) fs ((splitWs r).length - 1) = some f →
        (∀ m, m < (splitWs r).length →
          colMapping (headerCols out) fs m = some f →
          m = (splitWs r).length - 1) →
        lookupObj (recordOfLine out fs r) f = some "S") := by
  refine ⟨?_, ?_, ?_⟩
  · intro k f hget hlt hcmk huniq
    unfold recordOfLine
    exact scan_skip_lookup _ f _ 0 [] k hadj hget hlt
      (by rwa [Nat.zero_add])
      (fun m hm he => huniq m hm (by rwa [Nat.zero_add] at he))
  · intro f h
    unfold recordOfLine at h
    rcases scan_value_S _ _ 0 [] f hadj h with h' | h'
    · exact absurd h' (by simp [lookupObj])
    · exact h'
  · intro f hget hcm huniq
    unfold recordOfLine
    exact scan_last_S _ f _ 0 [] hadj hget (by rwa [Nat.zero_add])
      (fun m hm he => huniq m hm (by rwa [Nat.zero_add] at he))

/-- Witness for C1 at the spec's own example: skipping the `"S"` maps
`name` to `"com.example.app"`, the token following the skipped `"S"`. -/
theorem parse_skipS_scan_witness :
    lookupObj
        (recordOfLine "USER PID NAME\nroot 123 S com.example.app"
          ["user", "pid", "name"] "root 123 S com.example.app") "name" =
      (splitWs "root 123 S com.example.app").get? 3
    ∧ (splitWs "root 123 S com.example.app").get? 3 =
        some "com.example.app" :=
  ⟨(parse_skipS_scan "USER PID NAME\nroot 123 S com.example.app"
      ["user", "pid", "name"] "root 123 S com.example.app"
      (by decide) (by decide)).1 2 "name"
      (by decide) (by decide) (by decide) (by decide),
   by decide⟩

end Adb
